import Mathlib

/-!
# skvs: a gob/bolt backed key-value store

Shallow embedding of `src/skvs.go` (package `skvs`): `Open`, `KVStore.Insert`,
`KVStore.Retrieve`, `KVStore.Delete`, `KVStore.Close`.

The package is a thin layer over two external collaborators, which are not part of
the repository and are modelled here at the level of their documented behaviour:

* `github.com/boltdb/bolt` : the database handle (`bolt.DB`), managed transactions
  (`DB.Update`, `DB.View`), buckets (`Tx.Bucket`, `Tx.CreateBucketIfNotExists`,
  `Bucket.Put`) and cursors (`Cursor.Seek`, `Cursor.Delete`).  A bucket is an ordered
  list of key/value pairs; the B+tree pages are flattened into one list.  Nested
  buckets inside the `kv` bucket are not modelled (this package never creates one).
* `encoding/gob` : an encoder/decoder pair, taken as a parameter (`Codec`).

A Go `string` / `[]byte` is a list of byte values; the conversions `[]byte(key)` and
`string(k)` are the identity on it.  A Go `error` result is an `Option Error`
(`none` is `nil`), and a Go run-time panic is kept apart from a returned error.
-/

namespace Skvs

/-- A byte string (Go `string` or `[]byte`): the list of its byte values. -/
abbrev Bytes := List Nat

/-- Go `bytes.Compare a b < 0`: lexicographic byte-wise order, a proper prefix first. -/
def bytesLt : Bytes → Bytes → Bool
  | [], [] => false
  | [], _ :: _ => true
  | _ :: _, [] => false
  | a :: as, b :: bs => if a < b then true else if b < a then false else bytesLt as bs

/-! ## Ordered key/value pages (bolt `node` / `cursor`) -/

/-- Position of the first pair whose key is `>= key` (bolt `cursor.seek`, which searches
with `bytes.Compare(inode.key, key) != -1`); the length of the list when there is none.
bolt searches by bisection, which on ascending keys finds the same position. -/
def seekIdx {β : Type} (key : Bytes) : List (Bytes × β) → Nat
  | [] => 0
  | e :: rest => if bytesLt e.1 key then seekIdx key rest + 1 else 0

/-- bolt `node.put`: find the first pair whose key is `>= key`; overwrite it when the key is
equal, insert in front of it otherwise. -/
def put {β : Type} (key : Bytes) (value : β) : List (Bytes × β) → List (Bytes × β)
  | [] => [(key, value)]
  | e :: rest =>
    if bytesLt e.1 key then e :: put key value rest
    else if e.1 = key then (key, value) :: rest
    else (key, value) :: e :: rest

/-- bolt `node.del`: find the first pair whose key is `>= key`; remove it when the key is
equal, do nothing otherwise. -/
def del {β : Type} (key : Bytes) : List (Bytes × β) → List (Bytes × β)
  | [] => []
  | e :: rest =>
    if bytesLt e.1 key then e :: del key rest
    else if e.1 = key then rest
    else e :: rest

/-- Exact-match lookup as bolt does it (`Bucket.Get`, `Bucket.Bucket`): seek, then require
the key found to be equal to the key asked for. -/
def get {β : Type} (key : Bytes) (l : List (Bytes × β)) : Option β :=
  match l[seekIdx key l]? with
  | some (k, v) => if k = key then some v else none
  | none => none

/-- Keys strictly ascending in `bytes.Compare` order: the page invariant of a bolt bucket. -/
def Sorted {β : Type} (l : List (Bytes × β)) : Prop :=
  l.Pairwise (fun a b => bytesLt a.1 b.1 = true)

instance {β : Type} (l : List (Bytes × β)) : Decidable (Sorted l) := by
  unfold Sorted; infer_instance

/-! ## Errors -/

/-- Errors of `github.com/boltdb/bolt` that the calls made by this package can return. -/
inductive BoltError
  | ErrDatabaseNotOpen
  | ErrTxNotWritable
  | ErrBucketNameRequired
  | ErrKeyRequired
  | ErrKeyTooLarge
  | ErrValueTooLarge
  | io (code : Nat)
  deriving DecidableEq, Repr

/-- An error of the gob encoder or decoder. -/
structure GobError where
  code : Nat
  deriving DecidableEq, Repr

/-- A non-nil Go `error` value as this package can return it: its two sentinels
(`ErrNotFound`, `ErrBadValue`, created by `errors.New` in this package, so that no
collaborator can return them) and the errors of the collaborators, passed on verbatim. -/
inductive Error
  | ErrNotFound
  | ErrBadValue
  | bolt (e : BoltError)
  | gob (e : GobError)
  deriving DecidableEq, Repr

/-- What a call can panic on: the method call on the nil `*bolt.Bucket` that `tx.Bucket` yields
for a bucket that does not exist, or the gob encoder. -/
inductive Panic
  | nilBucket
  | encoder
  deriving DecidableEq, Repr

/-- How a call ends: it returns an `error` (`none` is `nil`), or it panics. -/
inductive Outcome
  | ret (err : Option Error)
  | panicked (why : Panic)
  deriving DecidableEq, Repr

/-! ## bolt: database, transactions, buckets, cursors -/

/-- bolt `MaxKeySize`. -/
def MaxKeySize : Nat := 32768

/-- bolt `MaxValueSize = (1 << 31) - 2`. -/
def MaxValueSize : Nat := 2147483646

/-- The state behind a `*bolt.DB`: whether the handle is open, the error (if any) with which
the engine fails to commit a write transaction (disk failure and the like), and the top-level
buckets of the file, by name. -/
structure DB where
  opened : Bool
  commitErr : Option BoltError
  root : List (Bytes × List (Bytes × Bytes))
  deriving DecidableEq, Repr

/-- A bolt transaction `*bolt.Tx`: its mode and its private view of the buckets. -/
structure Tx where
  writable : Bool
  root : List (Bytes × List (Bytes × Bytes))
  deriving DecidableEq, Repr

/-- A bucket handle `*bolt.Bucket` obtained inside a transaction. -/
structure Bucket where
  writable : Bool
  name : Bytes
  entries : List (Bytes × Bytes)
  deriving DecidableEq, Repr

/-- A cursor `*bolt.Cursor` over a bucket, with its position. -/
structure Cursor where
  bucket : Bucket
  idx : Nat
  deriving DecidableEq, Repr

/-- bolt `Tx.Bucket(name)`: the bucket of that name, `none` (Go `nil`) when there is none. -/
def Tx.Bucket (tx : Tx) (name : Bytes) : Option Bucket :=
  (get name tx.root).map (fun es => ⟨tx.writable, name, es⟩)

/-- Writes the pages of a bucket handle back into the transaction (in Go the handle points
into the transaction, so that a change made through it is a change of the transaction). -/
def Tx.store (tx : Tx) (b : Skvs.Bucket) : Tx :=
  { tx with root := put b.name b.entries tx.root }

/-- bolt `Tx.CreateBucketIfNotExists(name)`, of which the caller keeps only the error. -/
def Tx.CreateBucketIfNotExists (tx : Tx) (name : Bytes) : Option BoltError × Tx :=
  if !tx.writable then (some .ErrTxNotWritable, tx)
  else if name.length = 0 then (some .ErrBucketNameRequired, tx)
  else match get name tx.root with
    | some _ => (none, tx)
    | none => (none, { tx with root := put name [] tx.root })

/-- bolt `Bucket.Put(key, value)`. -/
def Bucket.Put (b : Bucket) (key value : Bytes) : Option BoltError × Bucket :=
  if !b.writable then (some .ErrTxNotWritable, b)
  else if key.length = 0 then (some .ErrKeyRequired, b)
  else if key.length > MaxKeySize then (some .ErrKeyTooLarge, b)
  else if value.length > MaxValueSize then (some .ErrValueTooLarge, b)
  else (none, { b with entries := put key value b.entries })

/-- bolt `Bucket.Cursor()`. -/
def Bucket.Cursor (b : Bucket) : Cursor := ⟨b, 0⟩

/-- bolt `Cursor.Seek(seek)`: moves to the first pair whose key is `>= seek` and returns it,
`none` (a `nil` key) when there is no such pair. -/
def Cursor.Seek (c : Cursor) (seek : Bytes) : Option (Bytes × Bytes) × Cursor :=
  let i := seekIdx seek c.bucket.entries
  (c.bucket.entries[i]?, { c with idx := i })

/-- bolt `Cursor.Delete()`: removes the pair under the cursor (`node.del` of its key). -/
def Cursor.Delete (c : Cursor) : Option BoltError × Cursor :=
  if !c.bucket.writable then (some .ErrTxNotWritable, c)
  else match c.bucket.entries[c.idx]? with
    | none => (none, c)
    | some (k, _) => (none, { c with bucket := { c.bucket with entries := del k c.bucket.entries } })

/-- bolt `DB.Update(fn)`: runs `fn` in a write transaction; an error or a panic of `fn` rolls
the transaction back, otherwise it is committed, and the result of the commit returned. -/
def DB.Update (db : DB) (fn : Tx → Outcome × Tx) : Outcome × DB :=
  if !db.opened then (.ret (some (.bolt .ErrDatabaseNotOpen)), db)
  else match fn ⟨true, db.root⟩ with
    | (.panicked why, _) => (.panicked why, db)
    | (.ret (some e), _) => (.ret (some e), db)
    | (.ret none, tx) =>
      match db.commitErr with
      | some e => (.ret (some (.bolt e)), db)
      | none => (.ret none, { db with root := tx.root })

/-- bolt `DB.View(fn)`: runs `fn` in a read-only transaction, which is always rolled back.
The function also yields what it did outside the transaction (type `α`). -/
def DB.View {α : Type} (db : DB) (dflt : α) (fn : Tx → Outcome × α) : Outcome × α × DB :=
  if !db.opened then (.ret (some (.bolt .ErrDatabaseNotOpen)), dflt, db)
  else
    let r := fn ⟨false, db.root⟩
    (r.1, r.2, db)

/-! ## gob -/

/-- The gob collaborator for values of type `V`.  `encode v` is `gob.NewEncoder(&buf).Encode(v)`
with the bytes left in `buf`; `decode data cur` is `gob.NewDecoder(bytes.NewReader(data)).Decode(p)`
for a destination `p` whose content is `cur`: the error returned and the content afterwards. -/
structure Codec (V : Type) where
  encode : V → Except GobError Bytes
  decode : Bytes → V → Option GobError × V

/-- A Go `interface{}` argument of `Insert`: the nil interface value (`nil`), a non-nil
interface value that holds a nil pointer (`nilPtr`, as in `var p *int; Insert(k, p)`), or a
value proper. -/
inductive Iface (V : Type)
  | nil
  | nilPtr
  | val (v : V)
  deriving DecidableEq, Repr

/-- How `Encoder.Encode` ends: bytes written, an error returned, or a panic. -/
inductive Encoded
  | ok (buf : Bytes)
  | error (err : GobError)
  | panic
  deriving DecidableEq, Repr

/-- gob `Encoder.Encode(e)` on an interface value: the nil interface is refused with an error
("cannot encode nil value"), a nil pointer makes gob panic ("cannot encode nil pointer of
type ..."), a value is encoded by the codec. -/
def Codec.Encode {V : Type} (c : Codec V) : Iface V → Encoded
  | .nil => .error ⟨0⟩
  | .nilPtr => .panic
  | .val v =>
    match c.encode v with
    | .ok buf => .ok buf
    | .error err => .error err

/-! ## package skvs -/

/-- `bucketName = []byte("kv")`. -/
def bucketName : Bytes := [107, 118]

/-- `type KVStore struct { db *bolt.DB }`. -/
structure KVStore where
  db : DB
  deriving DecidableEq, Repr

/-- `Open(path)`, returning the Go pair `(*KVStore, error)`.  `engine` is what
`bolt.Open(path, 0640, opts)` returned for that path. -/
def Open (engine : Except BoltError DB) : Option KVStore × Outcome :=
  match engine with
  | .error err => (none, .ret (some (.bolt err)))
  | .ok db =>
    match db.Update (fun tx =>
        let r := tx.CreateBucketIfNotExists bucketName
        (.ret (r.1.map Error.bolt), r.2)) with
    | (.ret (some err), _) => (none, .ret (some err))
    | (.ret none, db1) => (some ⟨db1⟩, .ret none)
    | (.panicked why, _) => (none, .panicked why)

/-- `(kvs *KVStore) Insert(key, value)`.  The test `value == nil` holds of the nil interface
value only; a nil pointer held in the interface passes it and reaches the encoder. -/
def KVStore.Insert {V : Type} (c : Codec V) (kvs : KVStore) (key : Bytes) (value : Iface V) :
    Outcome × KVStore :=
  match value with
  | .nil => (.ret (some .ErrBadValue), kvs)
  | value =>
    match c.Encode value with
    | .panic => (.panicked .encoder, kvs)
    | .error err => (.ret (some (.gob err)), kvs)
    | .ok buf =>
      let r := kvs.db.Update (fun tx =>
        match tx.Bucket bucketName with
        | none => (.panicked .nilBucket, tx)
        | some b =>
          let p := b.Put key buf
          (.ret (p.1.map Error.bolt), tx.store p.2))
      (r.1, ⟨r.2⟩)

/-- `(kvs *KVStore) Retrieve(key, value)`; `value = none` is a nil destination, `some cur`
a destination whose content is `cur`.  The result holds the destination afterwards. -/
def KVStore.Retrieve {V : Type} (c : Codec V) (kvs : KVStore) (key : Bytes) (value : Option V) :
    Outcome × Option V × KVStore :=
  let r := kvs.db.View value (fun tx =>
    match tx.Bucket bucketName with
    | none => (.panicked .nilBucket, value)
    | some b =>
      let cur := b.Cursor
      match (cur.Seek key).1 with
      | none => (.ret (some .ErrNotFound), value)
      | some (k, v) =>
        if k ≠ key then (.ret (some .ErrNotFound), value)
        else match value with
          | none => (.ret none, value)
          | some dst =>
            let d := c.decode v dst
            (.ret (d.1.map Error.gob), some d.2))
  (r.1, r.2.1, ⟨r.2.2⟩)

/-- `(kvs *KVStore) Delete(key)`. -/
def KVStore.Delete (kvs : KVStore) (key : Bytes) : Outcome × KVStore :=
  let r := kvs.db.Update (fun tx =>
    match tx.Bucket bucketName with
    | none => (.panicked .nilBucket, tx)
    | some b =>
      let cur := b.Cursor
      let s := cur.Seek key
      match s.1 with
      | none => (.ret (some .ErrNotFound), tx)
      | some (k, _) =>
        if k ≠ key then (.ret (some .ErrNotFound), tx)
        else
          let d := s.2.Delete
          (.ret (d.1.map Error.bolt), tx.store d.2.bucket))
  (r.1, ⟨r.2⟩)

/-- `(kvs *KVStore) Close()`. -/
def KVStore.Close (kvs : KVStore) : Option Error × KVStore :=
  (none, ⟨{ kvs.db with opened := false }⟩)

/-! ## Views used to state the contract -/

/-- The pairs of the `kv` bucket, as a transaction sees them (no pair when there is no bucket). -/
def KVStore.entries (kvs : KVStore) : List (Bytes × Bytes) :=
  (get bucketName kvs.db.root).getD []

/-- The lookup `tx.Bucket(bucketName)` that every operation starts with finds the bucket (it
does not yield `nil`) in a transaction on this store. -/
def KVStore.hasBucket (kvs : KVStore) : Bool :=
  (Tx.Bucket ⟨false, kvs.db.root⟩ bucketName).isSome

/-- The `kv` bucket, when it exists, holds its keys in ascending order. -/
def KVStore.WF (kvs : KVStore) : Prop :=
  match get bucketName kvs.db.root with
  | none => True
  | some es => Sorted es

instance (kvs : KVStore) : Decidable kvs.WF := by
  unfold KVStore.WF; split <;> infer_instance

/-- An open store in working order whose `kv` bucket holds the ascending pairs `es`: the handle
is open, the engine commits, and the bucket exists. -/
def KVStore.Ready (kvs : KVStore) (es : List (Bytes × Bytes)) : Prop :=
  kvs.db.opened = true ∧ kvs.db.commitErr = none ∧
    get bucketName kvs.db.root = some es ∧ Sorted es

instance (kvs : KVStore) (es : List (Bytes × Bytes)) : Decidable (kvs.Ready es) := by
  unfold KVStore.Ready; infer_instance

/-- One call on an opened store. -/
inductive Op (V : Type)
  | insert (key : Bytes) (value : Iface V)
  | retrieve (key : Bytes) (value : Option V)
  | delete (key : Bytes)

/-- Performs one call; the outcome and the store afterwards. -/
def KVStore.step {V : Type} (c : Codec V) (kvs : KVStore) : Op V → Outcome × KVStore
  | .insert key value => kvs.Insert c key value
  | .retrieve key value => ((kvs.Retrieve c key value).1, (kvs.Retrieve c key value).2.2)
  | .delete key => kvs.Delete key

/-- Performs a sequence of calls; the outcomes in order and the store afterwards. -/
def KVStore.run {V : Type} (c : Codec V) (kvs : KVStore) : List (Op V) → List Outcome × KVStore
  | [] => ([], kvs)
  | op :: ops =>
    let r := kvs.step c op
    let rs := KVStore.run c r.2 ops
    (r.1 :: rs.1, rs.2)

/-- The checks of `Bucket.Put` on its arguments, in their order: the error it returns for
this key and value in a writable transaction, if any. -/
def putCheck (key buf : Bytes) : Option BoltError :=
  if key.length = 0 then some .ErrKeyRequired
  else if key.length > MaxKeySize then some .ErrKeyTooLarge
  else if buf.length > MaxValueSize then some .ErrValueTooLarge
  else none

/-! ## Worked examples -/

/-- A codec for natural numbers, used in the worked examples: a number is encoded as one
element, and anything else than one element fails to decode, leaving the destination alone. -/
def natCodec : Codec Nat where
  encode := fun v => .ok [v]
  decode := fun data cur =>
    match data with
    | [x] => (none, x)
    | _ => (some ⟨1⟩, cur)

/-- A codec that treats a struct `S{A, B}` of two numbers (a pair) the way gob treats struct
fields: a field that is zero is left out of the encoding, and the decoder assigns the fields
that are in the encoding and leaves the other fields of the destination as they are.  The
leading `7` stands for the type of the struct. -/
def pairCodec : Codec (Nat × Nat) where
  encode := fun v =>
    .ok (7 :: ((if v.1 = 0 then [] else [1, v.1]) ++ (if v.2 = 0 then [] else [2, v.2])))
  decode := fun data cur =>
    match data with
    | [7] => (none, cur)
    | [7, 1, a] => (none, (a, cur.2))
    | [7, 2, b] => (none, (cur.1, b))
    | [7, 1, a, 2, b] => (none, (a, b))
    | _ => (some ⟨1⟩, cur)

/-- The store that `Open` yields on a new file: open, with an empty `kv` bucket. -/
def freshStore : KVStore := ⟨⟨true, none, [(bucketName, [])]⟩⟩

/-- An open store holding `"ab" -> 1` and `"abc" -> 2`. -/
def abStore : KVStore :=
  ⟨⟨true, none, [(bucketName, [([97, 98], [1]), ([97, 98, 99], [2])])]⟩⟩

/-! ## The byte order -/

theorem bytesLt_irrefl (a : Bytes) : bytesLt a a = false := by
  induction a with
  | nil => rfl
  | cons x xs ih => simp [bytesLt, ih]

theorem bytesLt_trans : ∀ (a b c : Bytes), bytesLt a b = true → bytesLt b c = true →
    bytesLt a c = true
  | [], [], _, h, _ => by simp [bytesLt] at h
  | [], _ :: _, [], _, h => by simp [bytesLt] at h
  | [], _ :: _, _ :: _, _, _ => by simp [bytesLt]
  | _ :: _, [], _, h, _ => by simp [bytesLt] at h
  | _ :: _, _ :: _, [], _, h => by simp [bytesLt] at h
  | x :: xs, y :: ys, z :: zs, h1, h2 => by
    simp only [bytesLt] at h1 h2 ⊢
    by_cases hxy : x < y
    · by_cases hyz : y < z
      · have : x < z := by omega
        simp [this]
      · by_cases hzy : z < y
        · simp [hyz, hzy] at h2
        · have : x < z := by omega
          simp [this]
    · by_cases hyx : y < x
      · simp [hxy, hyx] at h1
      · simp only [hxy, hyx, if_false] at h1
        have hxy2 : x = y := by omega
        subst hxy2
        by_cases hyz : x < z
        · simp [hyz]
        · by_cases hzy : z < x
          · simp [hyz, hzy] at h2
          · simp only [hyz, hzy, if_false] at h2 ⊢
            exact bytesLt_trans xs ys zs h1 h2

theorem bytesLt_asymm (a b : Bytes) (h : bytesLt a b = true) : bytesLt b a = false := by
  cases hb : bytesLt b a with
  | false => rfl
  | true =>
    have := bytesLt_trans a b a h hb
    rw [bytesLt_irrefl] at this
    exact absurd this (by simp)

theorem bytesLt_total : ∀ (a b : Bytes), bytesLt a b = false → bytesLt b a = false → a = b
  | [], [], _, _ => rfl
  | [], _ :: _, h, _ => by simp [bytesLt] at h
  | _ :: _, [], _, h => by simp [bytesLt] at h
  | x :: xs, y :: ys, h1, h2 => by
    simp only [bytesLt] at h1 h2
    by_cases hxy : x < y
    · simp [hxy] at h1
    · by_cases hyx : y < x
      · simp [hyx] at h2
      · simp only [hxy, hyx, if_false] at h1 h2
        have hxy2 : x = y := by omega
        rw [hxy2, bytesLt_total xs ys h1 h2]

theorem bytesLt_ne (a b : Bytes) (h : bytesLt a b = true) : a ≠ b := by
  intro hab
  rw [hab, bytesLt_irrefl] at h
  exact absurd h (by simp)

/-! ## Ordered pages: seek, put, del -/

section Pages
variable {β : Type}

theorem get_nil (key : Bytes) : get key ([] : List (Bytes × β)) = none := rfl

theorem get_cons (key : Bytes) (e : Bytes × β) (rest : List (Bytes × β)) :
    get key (e :: rest) =
      if bytesLt e.1 key then get key rest else if e.1 = key then some e.2 else none := by
  unfold get
  by_cases h : bytesLt e.1 key = true
  · simp [seekIdx, h]
  · simp [seekIdx, h]

theorem put_cons_lt {key : Bytes} {e : Bytes × β} (value : β) (rest : List (Bytes × β))
    (h : bytesLt e.1 key = true) : put key value (e :: rest) = e :: put key value rest := by
  simp [put, h]

theorem put_cons_eq {key : Bytes} {e : Bytes × β} (value : β) (rest : List (Bytes × β))
    (h : e.1 = key) : put key value (e :: rest) = (key, value) :: rest := by
  have h1 : bytesLt e.1 key = false := by rw [h]; exact bytesLt_irrefl key
  unfold put
  rw [h1]
  simp [h]

theorem put_cons_gt {key : Bytes} {e : Bytes × β} (value : β) (rest : List (Bytes × β))
    (h1 : bytesLt e.1 key = false) (h2 : e.1 ≠ key) :
    put key value (e :: rest) = (key, value) :: e :: rest := by
  unfold put
  rw [h1]
  simp [h2]

theorem del_cons_lt {key : Bytes} {e : Bytes × β} (rest : List (Bytes × β))
    (h : bytesLt e.1 key = true) : del key (e :: rest) = e :: del key rest := by
  simp [del, h]

theorem del_cons_eq {key : Bytes} {e : Bytes × β} (rest : List (Bytes × β))
    (h : e.1 = key) : del key (e :: rest) = rest := by
  have h1 : bytesLt e.1 key = false := by rw [h]; exact bytesLt_irrefl key
  unfold del
  rw [h1]
  simp [h]

theorem del_cons_gt {key : Bytes} {e : Bytes × β} (rest : List (Bytes × β))
    (h1 : bytesLt e.1 key = false) (h2 : e.1 ≠ key) : del key (e :: rest) = e :: rest := by
  unfold del
  rw [h1]
  simp [h2]

/-- The three ways a key stands to the key of a pair. -/
theorem key_cases (a key : Bytes) :
    bytesLt a key = true ∨ a = key ∨ (bytesLt a key = false ∧ a ≠ key) := by
  cases h : bytesLt a key with
  | true => exact Or.inl rfl
  | false =>
    by_cases h2 : a = key
    · exact Or.inr (Or.inl h2)
    · exact Or.inr (Or.inr ⟨rfl, h2⟩)

theorem seek_key_of_get {key : Bytes} {l : List (Bytes × β)} {v : β} (h : get key l = some v) :
    l[seekIdx key l]? = some (key, v) := by
  unfold get at h
  cases hs : l[seekIdx key l]? with
  | none => simp [hs] at h
  | some e =>
    obtain ⟨k, w⟩ := e
    simp only [hs] at h
    by_cases hk : k = key
    · simp [hk] at h
      simp [hk, h]
    · simp [hk] at h

theorem seek_of_get_none {key : Bytes} {l : List (Bytes × β)} (h : get key l = none) :
    l[seekIdx key l]? = none ∨
      ∃ k v, l[seekIdx key l]? = some (k, v) ∧ k ≠ key := by
  unfold get at h
  cases hs : l[seekIdx key l]? with
  | none => exact Or.inl rfl
  | some e =>
    obtain ⟨k, w⟩ := e
    simp only [hs] at h
    by_cases hk : k = key
    · simp [hk] at h
    · exact Or.inr ⟨k, w, rfl, hk⟩

theorem mem_of_get {key : Bytes} {l : List (Bytes × β)} {v : β} (h : get key l = some v) :
    (key, v) ∈ l := by
  induction l with
  | nil => simp [get_nil] at h
  | cons e rest ih =>
    rw [get_cons] at h
    rcases key_cases e.1 key with h1 | h1 | ⟨h1, h2⟩
    · rw [if_pos h1] at h
      exact List.mem_cons_of_mem _ (ih h)
    · have h0 : bytesLt e.1 key = false := by rw [h1]; exact bytesLt_irrefl key
      rw [h0] at h
      simp only [Bool.false_eq_true, if_false, if_pos h1, Option.some.injEq] at h
      have : e = (key, v) := by rw [← h1, ← h]
      rw [this]
      exact List.mem_cons_self _ _
    · rw [h1] at h
      simp [h2] at h

theorem get_none_of_not_mem {key : Bytes} {l : List (Bytes × β)}
    (h : ∀ v, (key, v) ∉ l) : get key l = none := by
  cases hg : get key l with
  | none => rfl
  | some v => exact absurd (mem_of_get hg) (h v)

theorem sorted_cons {e : Bytes × β} {rest : List (Bytes × β)} :
    Sorted (e :: rest) ↔ (∀ x ∈ rest, bytesLt e.1 x.1 = true) ∧ Sorted rest := by
  unfold Sorted
  exact List.pairwise_cons

theorem get_none_of_lt_all {key : Bytes} {l : List (Bytes × β)}
    (h : ∀ x ∈ l, bytesLt key x.1 = true) : get key l = none := by
  cases l with
  | nil => rfl
  | cons e rest =>
    have he := h e (List.mem_cons_self _ _)
    rw [get_cons, bytesLt_asymm _ _ he]
    have hne : e.1 ≠ key := fun heq => bytesLt_ne _ _ he heq.symm
    simp [hne]

theorem get_of_mem {key : Bytes} {l : List (Bytes × β)} {v : β} (hs : Sorted l)
    (h : (key, v) ∈ l) : get key l = some v := by
  induction l with
  | nil => simp at h
  | cons e rest ih =>
    rw [sorted_cons] at hs
    rw [get_cons]
    rcases List.mem_cons.mp h with heq | hmem
    · rw [← heq]
      simp [bytesLt_irrefl]
    · have hlt := hs.1 _ hmem
      simp only at hlt
      rw [if_pos hlt]
      exact ih hs.2 hmem

theorem get_eq_some_iff {key : Bytes} {l : List (Bytes × β)} {v : β} (hs : Sorted l) :
    get key l = some v ↔ (key, v) ∈ l :=
  ⟨mem_of_get, get_of_mem hs⟩

theorem get_eq_none_iff {key : Bytes} {l : List (Bytes × β)} (hs : Sorted l) :
    get key l = none ↔ ∀ v, (key, v) ∉ l := by
  constructor
  · intro h v hmem
    rw [get_of_mem hs hmem] at h
    exact absurd h (by simp)
  · exact get_none_of_not_mem

theorem mem_put {key : Bytes} {value : β} {l : List (Bytes × β)} {x : Bytes × β}
    (h : x ∈ put key value l) : x = (key, value) ∨ x ∈ l := by
  induction l with
  | nil => simpa [put] using h
  | cons e rest ih =>
    rcases key_cases e.1 key with h1 | h1 | ⟨h1, h2⟩
    · rw [put_cons_lt _ _ h1] at h
      rcases List.mem_cons.mp h with heq | hmem
      · exact Or.inr (heq ▸ List.mem_cons_self _ _)
      · rcases ih hmem with h2 | h2
        · exact Or.inl h2
        · exact Or.inr (List.mem_cons_of_mem _ h2)
    · rw [put_cons_eq _ _ h1] at h
      rcases List.mem_cons.mp h with heq | hmem
      · exact Or.inl heq
      · exact Or.inr (List.mem_cons_of_mem _ hmem)
    · rw [put_cons_gt _ _ h1 h2] at h
      rcases List.mem_cons.mp h with heq | hmem
      · exact Or.inl heq
      · exact Or.inr hmem

theorem mem_put_self (key : Bytes) (value : β) (l : List (Bytes × β)) :
    (key, value) ∈ put key value l := by
  induction l with
  | nil => simp [put]
  | cons e rest ih =>
    rcases key_cases e.1 key with h1 | h1 | ⟨h1, h2⟩
    · rw [put_cons_lt _ _ h1]
      exact List.mem_cons_of_mem _ ih
    · rw [put_cons_eq _ _ h1]
      exact List.mem_cons_self _ _
    · rw [put_cons_gt _ _ h1 h2]
      exact List.mem_cons_self _ _

theorem mem_put_of_ne {key k2 : Bytes} {value b : β} {l : List (Bytes × β)} (hne : k2 ≠ key) :
    (k2, b) ∈ put key value l ↔ (k2, b) ∈ l := by
  have hx : (k2, b) ≠ (key, value) := fun h => hne (congrArg Prod.fst h)
  induction l with
  | nil => simp [put, hx]
  | cons e rest ih =>
    rcases key_cases e.1 key with h1 | h1 | ⟨h1, h2⟩
    · rw [put_cons_lt _ _ h1]
      simp only [List.mem_cons, ih]
    · rw [put_cons_eq _ _ h1]
      have he : (k2, b) ≠ e := fun h => hne (by rw [← h1, ← h])
      simp [hx, he]
    · rw [put_cons_gt _ _ h1 h2]
      simp [hx]

theorem mem_del {key : Bytes} {l : List (Bytes × β)} {x : Bytes × β}
    (h : x ∈ del key l) : x ∈ l := by
  induction l with
  | nil => simp [del] at h
  | cons e rest ih =>
    rcases key_cases e.1 key with h1 | h1 | ⟨h1, h2⟩
    · rw [del_cons_lt _ h1] at h
      rcases List.mem_cons.mp h with heq | hmem
      · exact heq ▸ List.mem_cons_self _ _
      · exact List.mem_cons_of_mem _ (ih hmem)
    · rw [del_cons_eq _ h1] at h
      exact List.mem_cons_of_mem _ h
    · rw [del_cons_gt _ h1 h2] at h
      exact h

theorem mem_del_of_ne {key k2 : Bytes} {b : β} {l : List (Bytes × β)} (hne : k2 ≠ key) :
    (k2, b) ∈ del key l ↔ (k2, b) ∈ l := by
  induction l with
  | nil => simp [del]
  | cons e rest ih =>
    rcases key_cases e.1 key with h1 | h1 | ⟨h1, h2⟩
    · rw [del_cons_lt _ h1]
      simp only [List.mem_cons, ih]
    · rw [del_cons_eq _ h1]
      have he : (k2, b) ≠ e := fun h => hne (by rw [← h1, ← h])
      simp [he]
    · rw [del_cons_gt _ h1 h2]

theorem get_put_self (key : Bytes) (value : β) (l : List (Bytes × β)) :
    get key (put key value l) = some value := by
  induction l with
  | nil => simp [put, get_cons, bytesLt_irrefl]
  | cons e rest ih =>
    rcases key_cases e.1 key with h1 | h1 | ⟨h1, h2⟩
    · rw [put_cons_lt _ _ h1, get_cons, if_pos h1, ih]
    · rw [put_cons_eq _ _ h1, get_cons]
      simp [bytesLt_irrefl]
    · rw [put_cons_gt _ _ h1 h2, get_cons]
      simp [bytesLt_irrefl]

theorem get_put_of_ne {key k2 : Bytes} (value : β) (l : List (Bytes × β)) (hne : k2 ≠ key) :
    get k2 (put key value l) = get k2 l := by
  induction l with
  | nil =>
    simp only [put, get_cons, get_nil]
    have : ¬ key = k2 := fun h => hne h.symm
    simp [this]
  | cons e rest ih =>
    rcases key_cases e.1 key with h1 | h1 | ⟨h1, h2⟩
    · rw [put_cons_lt _ _ h1, get_cons, get_cons, ih]
    · rw [put_cons_eq _ _ h1, get_cons, get_cons]
      have hk : ¬ key = k2 := fun h => hne h.symm
      have he : ¬ e.1 = k2 := fun h => hne (by rw [← h1, ← h])
      simp only [h1, hk, he, if_false]
    · rw [put_cons_gt _ _ h1 h2, get_cons]
      have hk : ¬ key = k2 := fun h => hne h.symm
      cases hlt : bytesLt key k2 with
      | true => simp
      | false =>
        simp only [Bool.false_eq_true, if_false, hk]
        -- `k2 < key < e.1`, so the seek for `k2` stops at `e`, whose key is not `k2`
        have h3 : bytesLt k2 key = true := by
          cases h4 : bytesLt k2 key with
          | true => rfl
          | false => exact absurd (bytesLt_total _ _ h4 hlt) hne
        have h5 : bytesLt key e.1 = true := by
          cases h6 : bytesLt key e.1 with
          | true => rfl
          | false => exact absurd (bytesLt_total _ _ h1 h6) h2
        have h7 := bytesLt_trans _ _ _ h3 h5
        rw [get_cons, bytesLt_asymm _ _ h7]
        have h8 : ¬ e.1 = k2 := fun h => bytesLt_ne _ _ h7 h.symm
        simp [h8]

theorem sorted_put {key : Bytes} (value : β) {l : List (Bytes × β)} (hs : Sorted l) :
    Sorted (put key value l) := by
  induction l with
  | nil => simp [put, Sorted]
  | cons e rest ih =>
    rw [sorted_cons] at hs
    rcases key_cases e.1 key with h1 | h1 | ⟨h1, h2⟩
    · rw [put_cons_lt _ _ h1, sorted_cons]
      refine ⟨?_, ih hs.2⟩
      intro x hx
      rcases mem_put hx with hx | hx
      · rw [hx]; exact h1
      · exact hs.1 x hx
    · rw [put_cons_eq _ _ h1, sorted_cons]
      refine ⟨?_, hs.2⟩
      intro x hx
      have := hs.1 x hx
      rw [h1] at this
      exact this
    · have h5 : bytesLt key e.1 = true := by
        cases h6 : bytesLt key e.1 with
        | true => rfl
        | false => exact absurd (bytesLt_total _ _ h1 h6) h2
      rw [put_cons_gt _ _ h1 h2, sorted_cons]
      refine ⟨?_, sorted_cons.mpr hs⟩
      intro x hx
      rcases List.mem_cons.mp hx with hx | hx
      · rw [hx]; exact h5
      · exact bytesLt_trans _ _ _ h5 (hs.1 x hx)

theorem sorted_del {key : Bytes} {l : List (Bytes × β)} (hs : Sorted l) :
    Sorted (del key l) := by
  induction l with
  | nil => simp [del, Sorted]
  | cons e rest ih =>
    rw [sorted_cons] at hs
    rcases key_cases e.1 key with h1 | h1 | ⟨h1, h2⟩
    · rw [del_cons_lt _ h1, sorted_cons]
      exact ⟨fun x hx => hs.1 x (mem_del hx), ih hs.2⟩
    · rw [del_cons_eq _ h1]
      exact hs.2
    · rw [del_cons_gt _ h1 h2]
      exact sorted_cons.mpr hs

theorem del_of_get_none {key : Bytes} {l : List (Bytes × β)} (h : get key l = none) :
    del key l = l := by
  induction l with
  | nil => rfl
  | cons e rest ih =>
    rw [get_cons] at h
    rcases key_cases e.1 key with h1 | h1 | ⟨h1, h2⟩
    · rw [if_pos h1] at h
      rw [del_cons_lt _ h1, ih h]
    · have h0 : bytesLt e.1 key = false := by rw [h1]; exact bytesLt_irrefl key
      rw [h0] at h
      simp [h1] at h
    · rw [del_cons_gt _ h1 h2]

theorem get_del_self {key : Bytes} {l : List (Bytes × β)} (hs : Sorted l) :
    get key (del key l) = none := by
  induction l with
  | nil => rfl
  | cons e rest ih =>
    rw [sorted_cons] at hs
    rcases key_cases e.1 key with h1 | h1 | ⟨h1, h2⟩
    · rw [del_cons_lt _ h1, get_cons, if_pos h1]
      exact ih hs.2
    · rw [del_cons_eq _ h1]
      apply get_none_of_lt_all
      intro x hx
      have := hs.1 x hx
      rw [h1] at this
      exact this
    · rw [del_cons_gt _ h1 h2, get_cons, h1]
      simp [h2]

theorem get_del_of_ne {key k2 : Bytes} {l : List (Bytes × β)} (hs : Sorted l) (hne : k2 ≠ key) :
    get k2 (del key l) = get k2 l := by
  induction l with
  | nil => rfl
  | cons e rest ih =>
    rw [sorted_cons] at hs
    rcases key_cases e.1 key with h1 | h1 | ⟨h1, h2⟩
    · rw [del_cons_lt _ h1, get_cons, get_cons, ih hs.2]
    · rw [del_cons_eq _ h1, get_cons]
      have he : ¬ e.1 = k2 := fun h => hne (by rw [← h1, ← h])
      cases hlt : bytesLt e.1 k2 with
      | true => simp
      | false =>
        simp only [Bool.false_eq_true, if_false, he]
        apply get_none_of_lt_all
        intro x hx
        have h3 : bytesLt k2 e.1 = true := by
          cases h4 : bytesLt k2 e.1 with
          | true => rfl
          | false => exact absurd (bytesLt_total _ _ hlt h4) he
        exact bytesLt_trans _ _ _ h3 (hs.1 x hx)
    · rw [del_cons_gt _ h1 h2]

theorem not_mem_del_self {key : Bytes} {l : List (Bytes × β)} (hs : Sorted l) (v : β) :
    (key, v) ∉ del key l := fun h =>
  absurd (get_of_mem (sorted_del hs) h) (by rw [get_del_self hs]; simp)

/-- In an ascending page a key occurs once: the pairs with key `key` are the single pair
that an exact-match lookup finds. -/
theorem filter_key_of_get {key : Bytes} {l : List (Bytes × β)} {v : β} (hs : Sorted l)
    (h : get key l = some v) : l.filter (fun e => decide (e.1 = key)) = [(key, v)] := by
  induction l with
  | nil => simp [get_nil] at h
  | cons e rest ih =>
    rw [sorted_cons] at hs
    rw [get_cons] at h
    rcases key_cases e.1 key with h1 | h1 | ⟨h1, h2⟩
    · rw [if_pos h1] at h
      have hne : ¬ e.1 = key := bytesLt_ne _ _ h1
      rw [List.filter_cons_of_neg (by simpa using hne)]
      exact ih hs.2 h
    · have h0 : bytesLt e.1 key = false := by rw [h1]; exact bytesLt_irrefl key
      rw [h0] at h
      simp only [Bool.false_eq_true, if_false, if_pos h1, Option.some.injEq] at h
      have he : e = (key, v) := by rw [← h1, ← h]
      rw [List.filter_cons_of_pos (by simpa using h1), he]
      congr 1
      rw [List.filter_eq_nil_iff]
      intro x hx
      have hlt := hs.1 x hx
      rw [h1] at hlt
      have : ¬ x.1 = key := fun hxk => bytesLt_ne _ _ hlt hxk.symm
      simpa using this
    · rw [h1] at h
      simp [h2] at h

end Pages

/-! ## The operations, case by case -/

section Operations
variable {V : Type}

theorem Retrieve_closed (c : Codec V) (kvs : KVStore) (key : Bytes) (out : Option V)
    (ho : kvs.db.opened = false) :
    kvs.Retrieve c key out = (.ret (some (.bolt .ErrDatabaseNotOpen)), out, kvs) := by
  simp [KVStore.Retrieve, DB.View, ho]

theorem Retrieve_no_bucket (c : Codec V) (kvs : KVStore) (key : Bytes) (out : Option V)
    (ho : kvs.db.opened = true) (hb : get bucketName kvs.db.root = none) :
    kvs.Retrieve c key out = (.panicked .nilBucket, out, kvs) := by
  simp [KVStore.Retrieve, DB.View, ho, Tx.Bucket, hb]

theorem Retrieve_miss (c : Codec V) (kvs : KVStore) (key : Bytes) (out : Option V)
    {es : List (Bytes × Bytes)}
    (ho : kvs.db.opened = true) (hb : get bucketName kvs.db.root = some es)
    (hg : get key es = none) :
    kvs.Retrieve c key out = (.ret (some .ErrNotFound), out, kvs) := by
  simp only [KVStore.Retrieve, DB.View, ho, Tx.Bucket, hb, Option.map_some', Bucket.Cursor,
    Cursor.Seek]
  rcases seek_of_get_none hg with h | ⟨k, v, h, hk⟩
  · simp [h]
  · simp [h, hk]

theorem Retrieve_hit_nil (c : Codec V) (kvs : KVStore) (key : Bytes)
    {es : List (Bytes × Bytes)} {b : Bytes}
    (ho : kvs.db.opened = true) (hb : get bucketName kvs.db.root = some es)
    (hg : get key es = some b) :
    kvs.Retrieve c key none = (.ret none, none, kvs) := by
  simp [KVStore.Retrieve, DB.View, ho, Tx.Bucket, hb, Bucket.Cursor,
    Cursor.Seek, seek_key_of_get hg]

theorem Retrieve_hit (c : Codec V) (kvs : KVStore) (key : Bytes) (dst : V)
    {es : List (Bytes × Bytes)} {b : Bytes}
    (ho : kvs.db.opened = true) (hb : get bucketName kvs.db.root = some es)
    (hg : get key es = some b) :
    kvs.Retrieve c key (some dst) =
      (.ret ((c.decode b dst).1.map Error.gob), some (c.decode b dst).2, kvs) := by
  simp [KVStore.Retrieve, DB.View, ho, Tx.Bucket, hb, Bucket.Cursor,
    Cursor.Seek, seek_key_of_get hg]

theorem Insert_nil (c : Codec V) (kvs : KVStore) (key : Bytes) :
    kvs.Insert c key .nil = (.ret (some .ErrBadValue), kvs) := rfl

/-- A nil pointer held in the interface passes the test `value == nil` and makes the encoder
panic, before any transaction is begun. -/
theorem Insert_nilPtr (c : Codec V) (kvs : KVStore) (key : Bytes) :
    kvs.Insert c key .nilPtr = (.panicked .encoder, kvs) := rfl

theorem Put_writable (name key buf : Bytes) (es : List (Bytes × Bytes)) :
    (Bucket.Put ⟨true, name, es⟩ key buf) =
      match putCheck key buf with
      | some e => (some e, ⟨true, name, es⟩)
      | none => (none, ⟨true, name, put key buf es⟩) := by
  unfold Bucket.Put putCheck
  by_cases h1 : key.length = 0
  · simp [h1]
  · by_cases h2 : key.length > MaxKeySize
    · simp [h1, h2]
    · by_cases h3 : buf.length > MaxValueSize
      · simp [h1, h2, h3]
      · simp [h1, h2, h3]

/-- Every way `Insert` of a non-nil value can end. -/
theorem Insert_val (c : Codec V) (kvs : KVStore) (key : Bytes) (v : V) :
    kvs.Insert c key (.val v) =
      match c.encode v with
      | .error err => (.ret (some (.gob err)), kvs)
      | .ok buf =>
        if kvs.db.opened = false then (.ret (some (.bolt .ErrDatabaseNotOpen)), kvs)
        else match get bucketName kvs.db.root with
          | none => (.panicked .nilBucket, kvs)
          | some es =>
            match putCheck key buf with
            | some e => (.ret (some (.bolt e)), kvs)
            | none =>
              match kvs.db.commitErr with
              | some e => (.ret (some (.bolt e)), kvs)
              | none => (.ret none,
                  ⟨{ kvs.db with root := put bucketName (put key buf es) kvs.db.root }⟩) := by
  simp only [KVStore.Insert, Codec.Encode]
  cases henc : c.encode v with
  | error err => rfl
  | ok buf =>
    simp only
    cases ho : kvs.db.opened with
    | false => simp [DB.Update, ho]
    | true =>
      cases hb : get bucketName kvs.db.root with
      | none => simp [DB.Update, ho, Tx.Bucket, hb]
      | some es =>
        simp only [DB.Update, ho, Tx.Bucket, hb, Option.map_some', Put_writable]
        cases hp : putCheck key buf with
        | some e => simp
        | none =>
          cases hc : kvs.db.commitErr with
          | some e => simp
          | none => simp [Tx.store]

/-- Every way `Delete` can end. -/
theorem Delete_eq (kvs : KVStore) (key : Bytes) :
    kvs.Delete key =
      if kvs.db.opened = false then (.ret (some (.bolt .ErrDatabaseNotOpen)), kvs)
      else match get bucketName kvs.db.root with
        | none => (.panicked .nilBucket, kvs)
        | some es =>
          match get key es with
          | none => (.ret (some .ErrNotFound), kvs)
          | some _ =>
            match kvs.db.commitErr with
            | some e => (.ret (some (.bolt e)), kvs)
            | none => (.ret none,
                ⟨{ kvs.db with root := put bucketName (del key es) kvs.db.root }⟩) := by
  unfold KVStore.Delete
  cases ho : kvs.db.opened with
  | false => simp [DB.Update, ho]
  | true =>
    cases hb : get bucketName kvs.db.root with
    | none => simp [DB.Update, ho, Tx.Bucket, hb]
    | some es =>
      simp only [DB.Update, ho, Tx.Bucket, hb, Option.map_some', Bucket.Cursor, Cursor.Seek]
      cases hg : get key es with
      | none =>
        rcases seek_of_get_none hg with h | ⟨k, w, h, hk⟩
        · simp [h]
        · simp [h, hk]
      | some b =>
        simp only [seek_key_of_get hg, Cursor.Delete]
        cases hc : kvs.db.commitErr with
        | some e => simp
        | none => simp [Tx.store]

/-- Every way `Retrieve` can end. -/
theorem Retrieve_eq (c : Codec V) (kvs : KVStore) (key : Bytes) (out : Option V) :
    kvs.Retrieve c key out =
      if kvs.db.opened = false then (.ret (some (.bolt .ErrDatabaseNotOpen)), out, kvs)
      else match get bucketName kvs.db.root with
        | none => (.panicked .nilBucket, out, kvs)
        | some es =>
          match get key es with
          | none => (.ret (some .ErrNotFound), out, kvs)
          | some b =>
            match out with
            | none => (.ret none, none, kvs)
            | some dst => (.ret ((c.decode b dst).1.map Error.gob), some (c.decode b dst).2, kvs) := by
  cases ho : kvs.db.opened with
  | false => rw [Retrieve_closed c kvs key out ho]; simp
  | true =>
    cases hb : get bucketName kvs.db.root with
    | none => rw [Retrieve_no_bucket c kvs key out ho hb]; simp
    | some es =>
      cases hg : get key es with
      | none => rw [Retrieve_miss c kvs key out ho hb hg]; simp [hg]
      | some b =>
        cases out with
        | none => rw [Retrieve_hit_nil c kvs key ho hb hg]; simp [hg]
        | some dst => rw [Retrieve_hit c kvs key dst ho hb hg]; simp [hg]

/-- A successful `Insert` went through every step: the value was encoded, the store was open,
the bucket was there, `Put` accepted key and value, and the transaction was committed. -/
theorem Insert_ok_inv (c : Codec V) (kvs : KVStore) (key : Bytes) (v : V)
    (h : (kvs.Insert c key (.val v)).1 = .ret none) :
    ∃ buf es, c.encode v = .ok buf ∧ kvs.db.opened = true ∧ kvs.db.commitErr = none ∧
      get bucketName kvs.db.root = some es ∧ putCheck key buf = none ∧
      kvs.Insert c key (.val v) =
        (.ret none, ⟨{ kvs.db with root := put bucketName (put key buf es) kvs.db.root }⟩) := by
  rw [Insert_val] at h ⊢
  cases henc : c.encode v with
  | error err => simp [henc] at h
  | ok buf =>
    simp only [henc] at h
    cases ho : kvs.db.opened with
    | false => simp [ho] at h
    | true =>
      simp only [ho] at h
      cases hb : get bucketName kvs.db.root with
      | none => simp [hb] at h
      | some es =>
        simp only [hb] at h
        cases hp : putCheck key buf with
        | some e => simp [hp] at h
        | none =>
          simp only [hp] at h
          cases hc : kvs.db.commitErr with
          | some e => simp [hc] at h
          | none => exact ⟨buf, es, rfl, rfl, rfl, rfl, hp, by simp [hp]⟩

/-- The store after `Insert`: as before, or with the pair put into the `kv` bucket. -/
theorem Insert_state (c : Codec V) (kvs : KVStore) (key : Bytes) (value : Iface V) :
    (kvs.Insert c key value).2 = kvs ∨
      ∃ buf es, get bucketName kvs.db.root = some es ∧
        (kvs.Insert c key value).2 =
          ⟨{ kvs.db with root := put bucketName (put key buf es) kvs.db.root }⟩ := by
  cases value with
  | nil => exact Or.inl rfl
  | nilPtr => exact Or.inl rfl
  | val v =>
    rw [Insert_val]
    cases henc : c.encode v with
    | error err => exact Or.inl rfl
    | ok buf =>
      cases ho : kvs.db.opened with
      | false => exact Or.inl (by simp)
      | true =>
        cases hb : get bucketName kvs.db.root with
        | none => exact Or.inl (by simp)
        | some es =>
          cases hp : putCheck key buf with
          | some e => exact Or.inl (by simp [hp])
          | none =>
            cases hc : kvs.db.commitErr with
            | some e => exact Or.inl (by simp [hp])
            | none => exact Or.inr ⟨buf, es, rfl, by simp [hp]⟩

/-- The store after `Delete`: as before, or with the pair of that key deleted from the `kv`
bucket. -/
theorem Delete_state (kvs : KVStore) (key : Bytes) :
    (kvs.Delete key).2 = kvs ∨
      ∃ es, get bucketName kvs.db.root = some es ∧
        (kvs.Delete key).2 = ⟨{ kvs.db with root := put bucketName (del key es) kvs.db.root }⟩ := by
  rw [Delete_eq]
  cases ho : kvs.db.opened with
  | false => exact Or.inl (by simp)
  | true =>
    cases hb : get bucketName kvs.db.root with
    | none => exact Or.inl (by simp)
    | some es =>
      cases hg : get key es with
      | none => exact Or.inl (by simp [hg])
      | some b =>
        cases hc : kvs.db.commitErr with
        | some e => exact Or.inl (by simp [hg])
        | none => exact Or.inr ⟨es, rfl, by simp [hg]⟩

/-- What `Retrieve` returns and leaves in the destination depends on the store only through
the state of the handle and the exact-match lookup of the key in the `kv` bucket. -/
theorem Retrieve_congr (c : Codec V) (s t : KVStore) (key : Bytes) (out : Option V)
    (ho : s.db.opened = t.db.opened)
    (hl : (get bucketName s.db.root).map (get key) = (get bucketName t.db.root).map (get key)) :
    (s.Retrieve c key out).1 = (t.Retrieve c key out).1 ∧
      (s.Retrieve c key out).2.1 = (t.Retrieve c key out).2.1 := by
  rw [Retrieve_eq c s, Retrieve_eq c t, ← ho]
  cases s.db.opened with
  | false => simp
  | true =>
    cases hs : get bucketName s.db.root with
    | none =>
      cases ht : get bucketName t.db.root with
      | none => simp
      | some es => simp [hs, ht] at hl
    | some es =>
      cases ht : get bucketName t.db.root with
      | none => simp [hs, ht] at hl
      | some es2 =>
        simp only [hs, ht, Option.map_some', Option.some.injEq] at hl
        simp only [Bool.true_eq_false, if_false, hl]
        cases get key es2 with
        | none => exact ⟨rfl, rfl⟩
        | some b =>
          cases out with
          | none => exact ⟨rfl, rfl⟩
          | some dst => exact ⟨rfl, rfl⟩

/-- The store after a successful `Insert`: still open and in working order, its `kv` bucket
being the former one with the pair put into it. -/
theorem Insert_ok_post (c : Codec V) (kvs : KVStore) (key : Bytes) (v : V)
    (h : (kvs.Insert c key (.val v)).1 = .ret none) :
    ∃ buf es, c.encode v = .ok buf ∧ get bucketName kvs.db.root = some es ∧
      putCheck key buf = none ∧
      (kvs.Insert c key (.val v)).2.db.opened = true ∧
      (kvs.Insert c key (.val v)).2.db.commitErr = none ∧
      get bucketName (kvs.Insert c key (.val v)).2.db.root = some (put key buf es) := by
  obtain ⟨buf, es, henc, ho, hc, hb, hp, hst⟩ := Insert_ok_inv c kvs key v h
  refine ⟨buf, es, henc, hb, hp, ?_, ?_, ?_⟩
  · rw [hst]; exact ho
  · rw [hst]; exact hc
  · rw [hst]; exact get_put_self _ _ _

/-- The store after `Delete` of a key that is there, on an open store in working order: success,
the store still open and in working order, the pair deleted from the `kv` bucket. -/
theorem Delete_ok_post (kvs : KVStore) (key : Bytes) {es : List (Bytes × Bytes)} {b : Bytes}
    (ho : kvs.db.opened = true) (hc : kvs.db.commitErr = none)
    (hb : get bucketName kvs.db.root = some es) (hg : get key es = some b) :
    (kvs.Delete key).1 = .ret none ∧ (kvs.Delete key).2.db.opened = true ∧
      (kvs.Delete key).2.db.commitErr = none ∧
      get bucketName (kvs.Delete key).2.db.root = some (del key es) := by
  have hst : kvs.Delete key =
      (.ret none, ⟨{ kvs.db with root := put bucketName (del key es) kvs.db.root }⟩) := by
    rw [Delete_eq]
    simp [ho, hc, hb, hg]
  rw [hst]
  exact ⟨rfl, ho, hc, get_put_self _ _ _⟩

theorem entries_of_bucket {kvs : KVStore} {es : List (Bytes × Bytes)}
    (hb : get bucketName kvs.db.root = some es) : kvs.entries = es := by
  simp [KVStore.entries, hb]

theorem sorted_of_WF {kvs : KVStore} {es : List (Bytes × Bytes)} (hwf : kvs.WF)
    (hb : get bucketName kvs.db.root = some es) : Sorted es := by
  unfold KVStore.WF at hwf
  rw [hb] at hwf
  exact hwf

theorem hasBucket_iff (kvs : KVStore) :
    kvs.hasBucket = true ↔ ∃ es, get bucketName kvs.db.root = some es := by
  unfold KVStore.hasBucket Tx.Bucket
  cases get bucketName kvs.db.root with
  | none => simp
  | some es => simp

/-- Every way `Open` can end, given what `bolt.Open` returned. -/
theorem Open_eq (engine : Except BoltError DB) :
    Open engine =
      match engine with
      | .error err => (none, .ret (some (.bolt err)))
      | .ok db =>
        if db.opened = false then (none, .ret (some (.bolt .ErrDatabaseNotOpen)))
        else match db.commitErr with
          | some e => (none, .ret (some (.bolt e)))
          | none =>
            match get bucketName db.root with
            | some _ => (some ⟨db⟩, .ret none)
            | none => (some ⟨{ db with root := put bucketName [] db.root }⟩, .ret none) := by
  cases engine with
  | error err => rfl
  | ok db =>
    simp only [Open]
    cases ho : db.opened with
    | false => simp [DB.Update, ho]
    | true =>
      have hn : (bucketName.length = 0) = False := by simp [bucketName]
      cases hb : get bucketName db.root with
      | none =>
        cases hc : db.commitErr with
        | some e => simp [DB.Update, ho, Tx.CreateBucketIfNotExists, hn, hb, hc]
        | none => simp [DB.Update, ho, Tx.CreateBucketIfNotExists, hn, hb, hc]
      | some es =>
        cases hc : db.commitErr with
        | some e => simp [DB.Update, ho, Tx.CreateBucketIfNotExists, hn, hb, hc]
        | none =>
          simp [DB.Update, ho, Tx.CreateBucketIfNotExists, hn, hb, hc]
          cases db
          simp_all

/-- A store that `Open` returns is open, comes without an error, and has the `kv` bucket. -/
theorem Open_some (engine : Except BoltError DB) (kvs : KVStore) (o : Outcome)
    (h : Open engine = (some kvs, o)) :
    o = .ret none ∧ kvs.db.opened = true ∧ kvs.hasBucket = true := by
  rw [Open_eq] at h
  cases engine with
  | error err => simp at h
  | ok db =>
    simp only at h
    cases ho : db.opened with
    | false => simp [ho] at h
    | true =>
      simp only [ho] at h
      cases hc : db.commitErr with
      | some e => simp [hc] at h
      | none =>
        simp only [hc] at h
        cases hb : get bucketName db.root with
        | some es =>
          simp only [hb, Bool.true_eq_false, if_false, Prod.mk.injEq, Option.some.injEq] at h
          obtain ⟨h1, h2⟩ := h
          subst h1
          exact ⟨h2.symm, ho, (hasBucket_iff _).mpr ⟨es, hb⟩⟩
        | none =>
          simp only [hb, Bool.true_eq_false, if_false, Prod.mk.injEq, Option.some.injEq] at h
          obtain ⟨h1, h2⟩ := h
          subst h1
          exact ⟨h2.symm, rfl, (hasBucket_iff _).mpr ⟨[], get_put_self _ _ _⟩⟩

/-- A call on a store that has the `kv` bucket does not panic on a nil bucket and leaves a store
that has it. -/
theorem step_hasBucket (c : Codec V) (kvs : KVStore) (op : Op V) (h : kvs.hasBucket = true) :
    (kvs.step c op).1 ≠ .panicked .nilBucket ∧ (kvs.step c op).2.hasBucket = true := by
  obtain ⟨es, hb⟩ := (hasBucket_iff kvs).mp h
  cases op with
  | insert key value =>
    simp only [KVStore.step]
    constructor
    · cases value with
      | nil => simp [Insert_nil]
      | nilPtr => simp [Insert_nilPtr]
      | val v =>
        rw [Insert_val]
        cases c.encode v with
        | error err => simp
        | ok buf =>
          cases kvs.db.opened with
          | false => simp
          | true =>
            simp only [hb, Bool.true_eq_false, if_false]
            cases putCheck key buf with
            | some e => simp
            | none => cases kvs.db.commitErr <;> simp
    · rcases Insert_state c kvs key value with h2 | ⟨buf, es2, _, h2⟩
      · rw [h2]; exact h
      · rw [h2]
        exact (hasBucket_iff _).mpr ⟨_, get_put_self _ _ _⟩
  | retrieve key value =>
    simp only [KVStore.step]
    rw [Retrieve_eq]
    cases kvs.db.opened with
    | false => simpa using h
    | true =>
      simp only [hb, Bool.true_eq_false, if_false]
      cases get key es with
      | none => simpa using h
      | some b => cases value <;> simpa using h
  | delete key =>
    simp only [KVStore.step]
    constructor
    · rw [Delete_eq]
      cases kvs.db.opened with
      | false => simp
      | true =>
        simp only [hb, Bool.true_eq_false, if_false]
        cases get key es with
        | none => simp
        | some b => cases kvs.db.commitErr <;> simp
    · rcases Delete_state kvs key with h2 | ⟨es2, _, h2⟩
      · rw [h2]; exact h
      · rw [h2]
        exact (hasBucket_iff _).mpr ⟨_, get_put_self _ _ _⟩

theorem run_hasBucket (c : Codec V) (ops : List (Op V)) :
    ∀ kvs : KVStore, kvs.hasBucket = true →
      (∀ o ∈ (kvs.run c ops).1, o ≠ .panicked .nilBucket) ∧ (kvs.run c ops).2.hasBucket = true := by
  induction ops with
  | nil =>
    intro kvs h
    exact ⟨by simp [KVStore.run], h⟩
  | cons op ops ih =>
    intro kvs h
    obtain ⟨h1, h2⟩ := step_hasBucket c kvs op h
    obtain ⟨h3, h4⟩ := ih _ h2
    simp only [KVStore.run]
    refine ⟨?_, h4⟩
    intro o ho
    rcases List.mem_cons.mp ho with ho | ho
    · rw [ho]; exact h1
    · exact h3 o ho

/-- The ascending order of the `kv` bucket is kept by every call. -/
theorem step_WF (c : Codec V) (kvs : KVStore) (op : Op V) (h : kvs.WF) :
    (kvs.step c op).2.WF := by
  have hput : ∀ (es es2 : List (Bytes × Bytes)), get bucketName kvs.db.root = some es →
      (Sorted es → Sorted es2) →
      (KVStore.mk { kvs.db with root := put bucketName es2 kvs.db.root }).WF := by
    intro es es2 hb hs
    unfold KVStore.WF
    have : get bucketName (put bucketName es2 kvs.db.root) = some es2 := get_put_self _ _ _
    simp only [this]
    exact hs (sorted_of_WF h hb)
  cases op with
  | insert key value =>
    simp only [KVStore.step]
    rcases Insert_state c kvs key value with h2 | ⟨buf, es, hb, h2⟩
    · rw [h2]; exact h
    · rw [h2]
      exact hput es _ hb (sorted_put buf)
  | retrieve key value =>
    simp only [KVStore.step, KVStore.Retrieve, DB.View]
    split <;> exact h
  | delete key =>
    simp only [KVStore.step]
    rcases Delete_state kvs key with h2 | ⟨es, hb, h2⟩
    · rw [h2]; exact h
    · rw [h2]
      exact hput es _ hb sorted_del

/-- The ascending order of the `kv` bucket is kept by every sequence of calls. -/
theorem run_WF (c : Codec V) (ops : List (Op V)) :
    ∀ kvs : KVStore, kvs.WF → (kvs.run c ops).2.WF := by
  induction ops with
  | nil => intro kvs h; exact h
  | cons op ops ih =>
    intro kvs h
    simp only [KVStore.run]
    exact ih _ (step_WF c kvs op h)

/-- The nil interface value is rejected with `ErrBadValue` on every store, for every key and
codec, neither codec nor database being consulted; so on an open store where no pair had the
key, the `Retrieve` of that key that follows still returns `ErrNotFound`. -/
theorem Insert_nil_rejected (c : Codec V) (kvs : KVStore) (key : Bytes) :
    kvs.Insert c key .nil = (.ret (some .ErrBadValue), kvs) ∧
    (∀ (c2 : Codec V) (t : KVStore), (t.Insert c2 key .nil).1 = (kvs.Insert c key .nil).1) ∧
    (∀ (es : List (Bytes × Bytes)) (out : Option V), kvs.db.opened = true →
      get bucketName kvs.db.root = some es → (∀ b, (key, b) ∉ es) →
      (kvs.Insert c key .nil).2.Retrieve c key out = (.ret (some .ErrNotFound), out, kvs)) := by
  refine ⟨rfl, fun _ _ => rfl, ?_⟩
  intro es out ho hb habs
  exact Retrieve_miss c kvs key out ho hb (get_none_of_not_mem habs)

/-- The gob-like codec gives back every value whose encoding is decoded into a zero value. -/
theorem pairCodec_roundtrip (v : Nat × Nat) :
    ∃ buf, pairCodec.encode v = .ok buf ∧ pairCodec.decode buf (0, 0) = (none, v) := by
  obtain ⟨a, b⟩ := v
  refine ⟨_, rfl, ?_⟩
  by_cases ha : a = 0
  · by_cases hb : b = 0
    · subst ha; subst hb; rfl
    · subst ha; simp [pairCodec, hb]
  · by_cases hb : b = 0
    · subst hb; simp [pairCodec, ha]
    · simp [pairCodec, ha, hb]

end Operations

/-! ## The contract -/

section Contract
variable {V : Type}

/-- C1 (round trip, amended).  On every store, for every key (the empty one included) and every
non-nil value `v` with encoding `buf`: whenever `Insert(k, v)` returns success, the
`Retrieve(k, &out)` that follows it finds `buf` and returns what the decoder returns on `buf`
for the destination `out`, leaving in `out` what the decoder leaves; it returns success with
`v` in `out` whenever the decoder, run on `buf` and on what `out` held before, yields `v`. -/
theorem C1_insert_then_retrieve (c : Codec V) (kvs : KVStore) (k buf : Bytes) (v dst : V)
    (hins : (kvs.Insert c k (.val v)).1 = .ret none)
    (henc : c.encode v = .ok buf) :
    (kvs.Insert c k (.val v)).2.Retrieve c k (some dst) =
      (.ret ((c.decode buf dst).1.map Error.gob), some (c.decode buf dst).2,
        (kvs.Insert c k (.val v)).2) ∧
    (c.decode buf dst = (none, v) →
      (kvs.Insert c k (.val v)).2.Retrieve c k (some dst) =
        (.ret none, some v, (kvs.Insert c k (.val v)).2)) := by
  obtain ⟨buf2, es, henc2, _, _, ho, _, hb⟩ := Insert_ok_post c kvs k v hins
  have hbuf : buf2 = buf := by
    rw [henc] at henc2
    injection henc2 with h
    exact h.symm
  subst hbuf
  have hret := Retrieve_hit c _ k dst ho hb (get_put_self k buf2 es)
  refine ⟨hret, ?_⟩
  intro hdec
  rw [hret, hdec]
  rfl

theorem C1_insert_then_retrieve_witness :
    (freshStore.Insert pairCodec [107] (.val (0, 5))).1 = .ret none ∧
    pairCodec.encode (0, 5) = .ok [7, 2, 5] ∧
    pairCodec.decode [7, 2, 5] (0, 0) = (none, (0, 5)) ∧
    (freshStore.Insert pairCodec [107] (.val (0, 5))).2.Retrieve pairCodec [107] (some (0, 0)) =
      (.ret none, some (0, 5), (freshStore.Insert pairCodec [107] (.val (0, 5))).2) :=
  ⟨by decide, rfl, rfl,
    (C1_insert_then_retrieve pairCodec freshStore [107] [7, 2, 5] (0, 5) (0, 0) (by decide)
      rfl).2 rfl⟩

/-- C1 as stated fails: the codec round-trips `S{0, 5}` (decoding its encoding into a zero
value gives it back) and `Insert("k", S{0, 5})` returns success, yet `Retrieve("k", &out)` with
`out = S{9, 1}` returns success and leaves `S{9, 5}` in `out`, which is not the value
inserted: the field that is zero is not in the encoding, so the decoder leaves it alone. -/
theorem C1_counterexample :
    (freshStore.Insert pairCodec [107] (.val (0, 5))).1 = .ret none ∧
    pairCodec.encode (0, 5) = .ok [7, 2, 5] ∧
    pairCodec.decode [7, 2, 5] (0, 0) = (none, (0, 5)) ∧
    (freshStore.Insert pairCodec [107] (.val (0, 5))).2.Retrieve pairCodec [107] (some (9, 1)) =
      (.ret none, some (9, 5), (freshStore.Insert pairCodec [107] (.val (0, 5))).2) ∧
    ((freshStore.Insert pairCodec [107] (.val (0, 5))).2.Retrieve pairCodec [107]
      (some (9, 1))).2.1 ≠ some (0, 5) := by
  exact ⟨by decide, rfl, rfl, by decide, by decide⟩

/-- C2 (exact-match lookup).  On an open store whose `kv` bucket holds the pairs `es` with keys
in ascending order, for every key and every destination (nil or not): `Retrieve` returns
`ErrNotFound` if and only if no pair has exactly that key; with a nil destination it returns
success if and only if some pair has that key; and when the seek lands on a pair with another
key (the next one in order), that pair is not reported as found. -/
theorem C2_retrieve_exact_match (c : Codec V) (kvs : KVStore) (es : List (Bytes × Bytes))
    (key : Bytes) (out : Option V)
    (ho : kvs.db.opened = true) (hb : get bucketName kvs.db.root = some es) (hs : Sorted es) :
    ((kvs.Retrieve c key out).1 = .ret (some .ErrNotFound) ↔ ∀ b, (key, b) ∉ es) ∧
    ((kvs.Retrieve c key none).1 = .ret none ↔ ∃ b, (key, b) ∈ es) ∧
    (∀ k b, es[seekIdx key es]? = some (k, b) → k ≠ key →
      (kvs.Retrieve c key out).1 = .ret (some .ErrNotFound)) := by
  refine ⟨?_, ?_, ?_⟩
  · rw [← get_eq_none_iff hs]
    cases hg : get key es with
    | none => simp [Retrieve_miss c kvs key out ho hb hg]
    | some b =>
      cases out with
      | none => simp [Retrieve_hit_nil c kvs key ho hb hg]
      | some dst =>
        rw [Retrieve_hit c kvs key dst ho hb hg]
        cases (c.decode b dst).1 <;> simp
  · cases hg : get key es with
    | none =>
      rw [Retrieve_miss c kvs key none ho hb hg]
      have := (get_eq_none_iff hs).mp hg
      simp [this]
    | some b =>
      rw [Retrieve_hit_nil c kvs key ho hb hg]
      simp only [true_iff]
      exact ⟨b, mem_of_get hg⟩
  · intro k b hseek hk
    have hg : get key es = none := by
      unfold get
      rw [hseek]
      simp [hk]
    rw [Retrieve_miss c kvs key out ho hb hg]

theorem C2_retrieve_exact_match_witness :
    abStore.db.opened = true ∧
    get bucketName abStore.db.root = some [([97, 98], [1]), ([97, 98, 99], [2])] ∧
    Sorted [(([97, 98] : Bytes), ([1] : Bytes)), ([97, 98, 99], [2])] ∧
    ((abStore.Retrieve natCodec [97] (some 0)).1 = .ret (some .ErrNotFound) ↔
      ∀ b, (([97] : Bytes), b) ∉ [(([97, 98] : Bytes), ([1] : Bytes)), ([97, 98, 99], [2])]) ∧
    ((abStore.Retrieve natCodec [97] none).1 = .ret none ↔
      ∃ b, (([97] : Bytes), b) ∈ [(([97, 98] : Bytes), ([1] : Bytes)), ([97, 98, 99], [2])]) ∧
    (∀ k b, [(([97, 98] : Bytes), ([1] : Bytes)), ([97, 98, 99], [2])][seekIdx [97]
        [(([97, 98] : Bytes), ([1] : Bytes)), ([97, 98, 99], [2])]]? = some (k, b) → k ≠ [97] →
      (abStore.Retrieve natCodec [97] (some 0)).1 = .ret (some .ErrNotFound)) :=
  ⟨by decide, by decide, by decide,
    C2_retrieve_exact_match natCodec abStore [([97, 98], [1]), ([97, 98, 99], [2])] [97] (some 0)
      (by decide) (by decide) (by decide)⟩

/-- C3 (overwrite, amended).  On a store whose `kv` bucket holds its keys in ascending order,
after a successful `Insert(k, v1)` followed by a successful `Insert(k, v2)` the bucket holds
exactly one pair with key `k`, whose bytes are the encoding `b2` of `v2` (no merge, no second
pair); `Retrieve(k, &out)` returns what the decoder returns on `b2` for the destination `out`,
leaving in `out` what the decoder leaves; it returns success with `v2` in `out`, and so not
`v1` when `v1` is another value, whenever the decoder, run on `b2` and on what `out` held
before, yields `v2`. -/
theorem C3_insert_overwrites (c : Codec V) (kvs : KVStore) (k b2 : Bytes) (v1 v2 dst : V)
    (hwf : kvs.WF)
    (h1 : (kvs.Insert c k (.val v1)).1 = .ret none)
    (h2 : ((kvs.Insert c k (.val v1)).2.Insert c k (.val v2)).1 = .ret none)
    (henc : c.encode v2 = .ok b2) :
    ((kvs.Insert c k (.val v1)).2.Insert c k (.val v2)).2.entries.filter
        (fun e => decide (e.1 = k)) = [(k, b2)] ∧
    ((kvs.Insert c k (.val v1)).2.Insert c k (.val v2)).2.Retrieve c k (some dst) =
      (.ret ((c.decode b2 dst).1.map Error.gob), some (c.decode b2 dst).2,
        ((kvs.Insert c k (.val v1)).2.Insert c k (.val v2)).2) ∧
    (c.decode b2 dst = (none, v2) →
      ((kvs.Insert c k (.val v1)).2.Insert c k (.val v2)).2.Retrieve c k (some dst) =
        (.ret none, some v2, ((kvs.Insert c k (.val v1)).2.Insert c k (.val v2)).2) ∧
      (v1 ≠ v2 →
        (((kvs.Insert c k (.val v1)).2.Insert c k (.val v2)).2.Retrieve c k (some dst)).2.1
          ≠ some v1)) := by
  obtain ⟨b1, es, _, hb0, _, _, _, hb1⟩ := Insert_ok_post c kvs k v1 h1
  obtain ⟨b2x, es1, henc2, hb1x, _, ho2, _, hb2⟩ := Insert_ok_post c _ k v2 h2
  have hbuf : b2x = b2 := by
    rw [henc] at henc2
    injection henc2 with h
    exact h.symm
  subst hbuf
  have hes1 : es1 = put k b1 es := by
    rw [hb1] at hb1x
    injection hb1x with h
    exact h.symm
  subst hes1
  have hs : Sorted (put k b2x (put k b1 es)) :=
    sorted_put _ (sorted_put _ (sorted_of_WF hwf hb0))
  have hret := Retrieve_hit c _ k dst ho2 hb2 (get_put_self k b2x (put k b1 es))
  refine ⟨?_, hret, ?_⟩
  · rw [entries_of_bucket hb2]
    exact filter_key_of_get hs (get_put_self _ _ _)
  · intro hdec
    have hret2 : ((kvs.Insert c k (.val v1)).2.Insert c k (.val v2)).2.Retrieve c k (some dst) =
        (.ret none, some v2, ((kvs.Insert c k (.val v1)).2.Insert c k (.val v2)).2) := by
      rw [hret, hdec]
      rfl
    refine ⟨hret2, ?_⟩
    intro hne
    rw [hret2]
    intro h
    injection h with h
    exact hne h.symm

theorem C3_insert_overwrites_witness :
    freshStore.WF ∧
    (freshStore.Insert natCodec [97] (.val 1)).1 = .ret none ∧
    ((freshStore.Insert natCodec [97] (.val 1)).2.Insert natCodec [97] (.val 2)).1 = .ret none ∧
    natCodec.encode 2 = .ok [2] ∧ natCodec.decode [2] 0 = (none, 2) ∧
    ((freshStore.Insert natCodec [97] (.val 1)).2.Insert natCodec [97] (.val 2)).2.entries.filter
        (fun e => decide (e.1 = [97])) = [([97], [2])] ∧
    ((freshStore.Insert natCodec [97] (.val 1)).2.Insert natCodec [97] (.val 2)).2.Retrieve
        natCodec [97] (some 0) =
      (.ret none, some 2,
        ((freshStore.Insert natCodec [97] (.val 1)).2.Insert natCodec [97] (.val 2)).2) ∧
    (((freshStore.Insert natCodec [97] (.val 1)).2.Insert natCodec [97] (.val 2)).2.Retrieve
        natCodec [97] (some 0)).2.1 ≠ some 1 :=
  ⟨by decide, by decide, by decide, rfl, rfl,
    (C3_insert_overwrites natCodec freshStore [97] [2] 1 2 0 (by decide) (by decide)
      (by decide) rfl).1,
    ((C3_insert_overwrites natCodec freshStore [97] [2] 1 2 0 (by decide) (by decide)
      (by decide) rfl).2.2 rfl).1,
    ((C3_insert_overwrites natCodec freshStore [97] [2] 1 2 0 (by decide) (by decide)
      (by decide) rfl).2.2 rfl).2 (by decide)⟩

/-- C3 as stated fails: after `Insert("k", S{9, 1})` and `Insert("k", S{0, 0})`, both
successful, the bucket holds the one pair with the encoding of `S{0, 0}`, yet
`Retrieve("k", &out)` with `out = S{9, 1}` returns success and leaves `S{9, 1}`, the first
value, in `out`: no field of `S{0, 0}` is in its encoding, so the decoder assigns none. -/
theorem C3_counterexample :
    freshStore.WF ∧
    (freshStore.Insert pairCodec [107] (.val (9, 1))).1 = .ret none ∧
    ((freshStore.Insert pairCodec [107] (.val (9, 1))).2.Insert pairCodec [107]
      (.val (0, 0))).1 = .ret none ∧
    pairCodec.encode (0, 0) = .ok [7] ∧
    pairCodec.decode [7] (0, 0) = (none, (0, 0)) ∧
    ((freshStore.Insert pairCodec [107] (.val (9, 1))).2.Insert pairCodec [107]
      (.val (0, 0))).2.entries = [([107], [7])] ∧
    ((freshStore.Insert pairCodec [107] (.val (9, 1))).2.Insert pairCodec [107]
      (.val (0, 0))).2.Retrieve pairCodec [107] (some (9, 1)) =
      (.ret none, some (9, 1),
        ((freshStore.Insert pairCodec [107] (.val (9, 1))).2.Insert pairCodec [107]
          (.val (0, 0))).2) := by
  exact ⟨by decide, by decide, by decide, rfl, rfl, by decide, by decide⟩

/-- C4 (delete of a present key).  On an open store in working order whose `kv` bucket holds
the ascending pairs `es`, for every key `k` that has a pair: `Delete(k)` returns success;
afterwards no pair has key `k`; a following `Retrieve(k, _)` returns `ErrNotFound`, leaving the
destination alone; and a second `Delete(k)` returns `ErrNotFound`. -/
theorem C4_delete_present (c : Codec V) (kvs : KVStore) (es : List (Bytes × Bytes))
    (k b : Bytes) (out : Option V)
    (hr : kvs.Ready es) (hmem : (k, b) ∈ es) :
    (kvs.Delete k).1 = .ret none ∧
    (∀ b2, (k, b2) ∉ (kvs.Delete k).2.entries) ∧
    (kvs.Delete k).2.Retrieve c k out = (.ret (some .ErrNotFound), out, (kvs.Delete k).2) ∧
    (kvs.Delete k).2.Delete k = (.ret (some .ErrNotFound), (kvs.Delete k).2) := by
  obtain ⟨ho, hc, hb, hs⟩ := hr
  obtain ⟨hok, ho2, _, hb2⟩ := Delete_ok_post kvs k ho hc hb (get_of_mem hs hmem)
  have hg2 : get k (del k es) = none := get_del_self hs
  refine ⟨hok, ?_, ?_, ?_⟩
  · intro b2
    rw [entries_of_bucket hb2]
    exact not_mem_del_self hs b2
  · exact Retrieve_miss c _ k out ho2 hb2 hg2
  · rw [Delete_eq]
    simp [ho2, hb2, hg2]

theorem C4_delete_present_witness :
    abStore.Ready [([97, 98], [1]), ([97, 98, 99], [2])] ∧
    (([97, 98] : Bytes), ([1] : Bytes)) ∈
      [(([97, 98] : Bytes), ([1] : Bytes)), ([97, 98, 99], [2])] ∧
    (abStore.Delete [97, 98]).1 = .ret none ∧
    (∀ b2, ([97, 98], b2) ∉ (abStore.Delete [97, 98]).2.entries) ∧
    (abStore.Delete [97, 98]).2.Retrieve natCodec [97, 98] (some 0) =
      (.ret (some .ErrNotFound), some 0, (abStore.Delete [97, 98]).2) ∧
    (abStore.Delete [97, 98]).2.Delete [97, 98] =
      (.ret (some .ErrNotFound), (abStore.Delete [97, 98]).2) :=
  ⟨by decide, by decide,
    C4_delete_present natCodec abStore [([97, 98], [1]), ([97, 98, 99], [2])]
      [97, 98] [1] (some 0) (by decide) (by decide)⟩

/-- C5 (delete of an absent key).  On an open store whose `kv` bucket holds the pairs `es`, for
every key that no pair has exactly (the seek may land on the next key in order, or on none):
`Delete` returns `ErrNotFound`, which is not success, and the store is as it was. -/
theorem C5_delete_absent (kvs : KVStore) (es : List (Bytes × Bytes)) (key : Bytes)
    (ho : kvs.db.opened = true) (hb : get bucketName kvs.db.root = some es)
    (habs : ∀ b, (key, b) ∉ es) :
    kvs.Delete key = (.ret (some .ErrNotFound), kvs) ∧ (kvs.Delete key).1 ≠ .ret none := by
  have hg := get_none_of_not_mem habs
  have h : kvs.Delete key = (.ret (some .ErrNotFound), kvs) := by
    rw [Delete_eq]
    simp [ho, hb, hg]
  exact ⟨h, by rw [h]; simp⟩

theorem C5_delete_absent_witness :
    abStore.db.opened = true ∧
    get bucketName abStore.db.root = some [([97, 98], [1]), ([97, 98, 99], [2])] ∧
    (∀ b, (([97] : Bytes), b) ∉ [(([97, 98] : Bytes), ([1] : Bytes)), ([97, 98, 99], [2])]) ∧
    abStore.Delete [97] = (.ret (some .ErrNotFound), abStore) ∧
    (abStore.Delete [97]).1 ≠ .ret none :=
  ⟨by decide, by decide, by simp,
    C5_delete_absent abStore [([97, 98], [1]), ([97, 98, 99], [2])] [97] (by decide) (by decide)
      (by simp)⟩

/-- C6 (nil value).  `Insert` of the nil interface value returns `ErrBadValue` on every store,
for every key and codec, and leaves the store as it was.  A nil pointer held in the interface
is not rejected: it passes the test `value == nil`, the encoder panics on it, and no
`ErrBadValue` is returned, on every store; the store is left as it was.  On the freshly opened
store `Insert("k", p)` with `var p *int` panics, and `Retrieve("k", &out)` returns
`ErrNotFound` afterwards. -/
theorem C6_insert_nil_value :
    (∀ (c : Codec V) (kvs : KVStore) (key : Bytes),
      kvs.Insert c key .nil = (.ret (some .ErrBadValue), kvs)) ∧
    (∀ (c : Codec V) (kvs : KVStore) (key : Bytes),
      kvs.Insert c key .nilPtr = (.panicked .encoder, kvs)) ∧
    freshStore.Insert natCodec [107] .nilPtr = (.panicked .encoder, freshStore) ∧
    (freshStore.Insert natCodec [107] .nilPtr).1 ≠ .ret (some .ErrBadValue) ∧
    (freshStore.Insert natCodec [107] .nilPtr).2.Retrieve natCodec [107] (some 0) =
      (.ret (some .ErrNotFound), some 0, freshStore) := by
  refine ⟨fun _ _ _ => rfl, fun _ _ _ => rfl, by decide, by decide, by decide⟩

/-- C7 (empty key).  `Insert("", v)` does not do what the specification (and the comment on
`Insert`, "Key can be empty") says: for every codec, store and non-nil value it does not return success
and leaves the store as it was, because `Bucket.Put` rejects a key of length zero with
`ErrKeyRequired`.  On the freshly opened store, `Insert("", 7)` returns that error, creates no
pair, and `Retrieve("", &out)` and `Delete("")` return `ErrNotFound`. -/
theorem C7_insert_empty_key_fails :
    (∀ (c : Codec V) (kvs : KVStore) (v : V),
      (kvs.Insert c [] (.val v)).1 ≠ .ret none ∧ (kvs.Insert c [] (.val v)).2 = kvs) ∧
    freshStore.Insert natCodec [] (.val 7) =
      (.ret (some (.bolt .ErrKeyRequired)), freshStore) ∧
    (freshStore.Insert natCodec [] (.val 7)).2.Retrieve natCodec [] (some 0) =
      (.ret (some .ErrNotFound), some 0, freshStore) ∧
    (freshStore.Insert natCodec [] (.val 7)).2.Delete [] =
      (.ret (some .ErrNotFound), freshStore) := by
  refine ⟨?_, by decide, by decide, by decide⟩
  intro c kvs v
  rw [Insert_val]
  cases c.encode v with
  | error err => simp
  | ok buf =>
    cases kvs.db.opened with
    | false => simp
    | true =>
      cases get bucketName kvs.db.root with
      | none => simp
      | some es => simp [putCheck]

/-- C8 (frame of the write operations).  On a store whose `kv` bucket holds its keys in
ascending order, for keys `k2 ≠ k` and every value (nil or not): the pairs with key `k2` are the
same before and after `Insert(k, value)` and before and after `Delete(k)`, whatever these
return; hence `Retrieve(k2, _)` returns the same and leaves the same in its destination. -/
theorem C8_write_frame (c : Codec V) (kvs : KVStore) (k k2 : Bytes) (value : Iface V)
    (out : Option V)
    (hwf : kvs.WF) (hne : k2 ≠ k) :
    (∀ b, (k2, b) ∈ (kvs.Insert c k value).2.entries ↔ (k2, b) ∈ kvs.entries) ∧
    (∀ b, (k2, b) ∈ (kvs.Delete k).2.entries ↔ (k2, b) ∈ kvs.entries) ∧
    ((kvs.Insert c k value).2.Retrieve c k2 out).1 = (kvs.Retrieve c k2 out).1 ∧
    ((kvs.Insert c k value).2.Retrieve c k2 out).2.1 = (kvs.Retrieve c k2 out).2.1 ∧
    ((kvs.Delete k).2.Retrieve c k2 out).1 = (kvs.Retrieve c k2 out).1 ∧
    ((kvs.Delete k).2.Retrieve c k2 out).2.1 = (kvs.Retrieve c k2 out).2.1 := by
  have hins : (∀ b, (k2, b) ∈ (kvs.Insert c k value).2.entries ↔ (k2, b) ∈ kvs.entries) ∧
      ((kvs.Insert c k value).2.Retrieve c k2 out).1 = (kvs.Retrieve c k2 out).1 ∧
      ((kvs.Insert c k value).2.Retrieve c k2 out).2.1 = (kvs.Retrieve c k2 out).2.1 := by
    rcases Insert_state c kvs k value with h | ⟨buf, es, hb, h⟩
    · rw [h]
      exact ⟨fun _ => Iff.rfl, rfl, rfl⟩
    · rw [h]
      have hb2 : get bucketName (KVStore.mk
          { kvs.db with root := put bucketName (put k buf es) kvs.db.root }).db.root =
            some (put k buf es) := get_put_self _ _ _
      refine ⟨?_, ?_⟩
      · intro b
        rw [entries_of_bucket hb2, entries_of_bucket hb]
        exact mem_put_of_ne hne
      · apply Retrieve_congr
        · rfl
        · rw [hb2, hb]
          simp [get_put_of_ne buf es hne]
  have hdel : (∀ b, (k2, b) ∈ (kvs.Delete k).2.entries ↔ (k2, b) ∈ kvs.entries) ∧
      ((kvs.Delete k).2.Retrieve c k2 out).1 = (kvs.Retrieve c k2 out).1 ∧
      ((kvs.Delete k).2.Retrieve c k2 out).2.1 = (kvs.Retrieve c k2 out).2.1 := by
    rcases Delete_state kvs k with h | ⟨es, hb, h⟩
    · rw [h]
      exact ⟨fun _ => Iff.rfl, rfl, rfl⟩
    · rw [h]
      have hb2 : get bucketName (KVStore.mk
          { kvs.db with root := put bucketName (del k es) kvs.db.root }).db.root =
            some (del k es) := get_put_self _ _ _
      refine ⟨?_, ?_⟩
      · intro b
        rw [entries_of_bucket hb2, entries_of_bucket hb]
        exact mem_del_of_ne hne
      · apply Retrieve_congr
        · rfl
        · rw [hb2, hb]
          simp [get_del_of_ne (sorted_of_WF hwf hb) hne]
  exact ⟨hins.1, hdel.1, hins.2.1, hins.2.2, hdel.2.1, hdel.2.2⟩

theorem C8_write_frame_witness :
    abStore.WF ∧ ([97, 98, 99] : Bytes) ≠ [97, 98] ∧
    (∀ b, ([97, 98, 99], b) ∈ (abStore.Insert natCodec [97, 98] (.val 9)).2.entries ↔
      ([97, 98, 99], b) ∈ abStore.entries) ∧
    (∀ b, ([97, 98, 99], b) ∈ (abStore.Delete [97, 98]).2.entries ↔
      ([97, 98, 99], b) ∈ abStore.entries) ∧
    ((abStore.Insert natCodec [97, 98] (.val 9)).2.Retrieve natCodec [97, 98, 99] (some 0)).1 =
      (abStore.Retrieve natCodec [97, 98, 99] (some 0)).1 ∧
    ((abStore.Insert natCodec [97, 98] (.val 9)).2.Retrieve natCodec [97, 98, 99] (some 0)).2.1 =
      (abStore.Retrieve natCodec [97, 98, 99] (some 0)).2.1 ∧
    ((abStore.Delete [97, 98]).2.Retrieve natCodec [97, 98, 99] (some 0)).1 =
      (abStore.Retrieve natCodec [97, 98, 99] (some 0)).1 ∧
    ((abStore.Delete [97, 98]).2.Retrieve natCodec [97, 98, 99] (some 0)).2.1 =
      (abStore.Retrieve natCodec [97, 98, 99] (some 0)).2.1 :=
  ⟨by decide, by decide,
    C8_write_frame natCodec abStore [97, 98] [97, 98, 99] (.val 9) (some 0)
      (by decide) (by decide)⟩

/-- C9 (`Retrieve` is read-only).  On every store, for every key and destination, `Retrieve`
leaves the store as it was, whatever it returns; and when it returns `ErrNotFound` the
destination is as it was, and the codec was not consulted: with any other codec the call ends
the same way. -/
theorem C9_retrieve_read_only (c : Codec V) (kvs : KVStore) (key : Bytes) (out : Option V) :
    (kvs.Retrieve c key out).2.2 = kvs ∧
    ((kvs.Retrieve c key out).1 = .ret (some .ErrNotFound) →
      (kvs.Retrieve c key out).2.1 = out ∧
        ∀ c2 : Codec V, kvs.Retrieve c2 key out = kvs.Retrieve c key out) := by
  constructor
  · simp only [KVStore.Retrieve, DB.View]
    split <;> rfl
  · rw [Retrieve_eq]
    cases ho : kvs.db.opened with
    | false => simp
    | true =>
      cases hb : get bucketName kvs.db.root with
      | none => simp
      | some es =>
        cases hg : get key es with
        | none =>
          intro _
          refine ⟨by simp [hg], ?_⟩
          intro c2
          rw [Retrieve_eq c2]
          simp [ho, hb, hg]
        | some b =>
          cases out with
          | none => simp [hg]
          | some dst =>
            simp only [Bool.true_eq_false, if_false, hg]
            cases (c.decode b dst).1 <;> simp

theorem C9_retrieve_read_only_witness :
    (abStore.Retrieve natCodec [97] (some 0)).2.2 = abStore ∧
    (abStore.Retrieve natCodec [97] (some 0)).1 = .ret (some .ErrNotFound) ∧
    (abStore.Retrieve natCodec [97] (some 0)).2.1 = some 0 ∧
    (∀ c2 : Codec Nat,
      abStore.Retrieve c2 [97] (some 0) = abStore.Retrieve natCodec [97] (some 0)) :=
  ⟨(C9_retrieve_read_only natCodec abStore [97] (some 0)).1, by decide,
    (C9_retrieve_read_only natCodec abStore [97] (some 0)).2 (by decide)⟩

/-- C10 (bucket existence).  `Open` returns a store only when the bucket step succeeded: the
store then comes with a nil error, is open and has the `kv` bucket; when `bolt.Open` fails, or
the transaction that creates or verifies the bucket returns an error, `Open` returns that error
and no store.  From a store that `Open` returned, after every sequence of `Insert`, `Retrieve`
and `Delete` calls the `kv` bucket is still there, and no call met a missing bucket (none
panicked on a nil bucket). -/
theorem C10_bucket_exists (c : Codec V) (engine : Except BoltError DB) :
    (∀ kvs o, Open engine = (some kvs, o) →
      o = .ret none ∧ kvs.db.opened = true ∧ kvs.hasBucket = true ∧
      ∀ ops : List (Op V),
        (kvs.run c ops).2.hasBucket = true ∧
          ∀ r ∈ (kvs.run c ops).1, r ≠ .panicked .nilBucket) ∧
    (∀ err, engine = .error err → Open engine = (none, .ret (some (.bolt err)))) ∧
    (∀ db e, engine = .ok db →
      (db.Update (fun tx =>
        (.ret ((tx.CreateBucketIfNotExists bucketName).1.map Error.bolt),
          (tx.CreateBucketIfNotExists bucketName).2))).1 = .ret (some e) →
      Open engine = (none, .ret (some e))) := by
  refine ⟨?_, ?_, ?_⟩
  · intro kvs o h
    obtain ⟨h1, h2, h3⟩ := Open_some engine kvs o h
    refine ⟨h1, h2, h3, ?_⟩
    intro ops
    obtain ⟨h4, h5⟩ := run_hasBucket c ops kvs h3
    exact ⟨h5, h4⟩
  · intro err h
    rw [h]
    rfl
  · intro db e h hu
    rw [h]
    simp only [Open]
    generalize db.Update _ = r at hu ⊢
    obtain ⟨r1, r2⟩ := r
    simp only at hu
    rw [hu]

theorem C10_bucket_exists_witness :
    Open (.ok ⟨true, none, []⟩) = (some freshStore, .ret none) ∧
    (freshStore.run natCodec
      [.insert [97] (.val 1), .insert [98] .nilPtr, .retrieve [97] (some 0), .delete [97],
        .delete [97]]).2.hasBucket
        = true ∧
    (DB.Update ⟨true, some (.io 5), []⟩ (fun tx =>
        (.ret ((tx.CreateBucketIfNotExists bucketName).1.map Error.bolt),
          (tx.CreateBucketIfNotExists bucketName).2))).1 = .ret (some (.bolt (.io 5))) ∧
    Open (.ok ⟨true, some (.io 5), []⟩) = (none, .ret (some (.bolt (.io 5)))) :=
  ⟨by decide,
    (((C10_bucket_exists natCodec (.ok ⟨true, none, []⟩)).1 freshStore (.ret none)
      (by decide)).2.2.2
        [.insert [97] (.val 1), .insert [98] .nilPtr, .retrieve [97] (some 0), .delete [97],
        .delete [97]]).1,
    by decide,
    (C10_bucket_exists natCodec (.ok ⟨true, some (.io 5), []⟩)).2.2
      ⟨true, some (.io 5), []⟩ (.bolt (.io 5)) rfl (by decide)⟩

end Contract

end Skvs
